import Mathlib

/-!
# Grid-alignment engine: shallow embedding of `grid.py`

This file embeds the grid helpers of the repository (`get_cells`,
`get_ll_points`, `get_grid_intersections`, `get_centroids`) over the
rationals and proves the spec's claims about them.

Modelling conventions:
* Python floats are modelled as `ℚ`; `math.floor` / `math.ceil` are
  `Int.floor` / `Int.ceil`.
* A shapely geometry is an opaque value exposing exactly what the code
  uses: a `bounds` 4-tuple and a boolean `intersects` predicate on
  axis-aligned boxes (`Geom`).
* `numpy.arange start stop step` builds an array of length
  `⌈(stop - start) / step⌉` (clamped at 0) whose `i`-th element is
  `start + i * step` — numpy's fill for float dtypes computes each
  element by index multiplication from the start value.
* `shapely.geometry.box minx miny maxx maxy` is the `Box` record; the
  centroid of such a box polygon is its center point.
* Python's `round` is round-half-to-even on the scaled value
  (`roundHalfEven`, `pyRound`).
* Generators are modelled as the lists of the values they yield.
-/

/-- An axis-aligned box, as built by `shapely.geometry.box`. -/
structure Box where
  minx : ℚ
  miny : ℚ
  maxx : ℚ
  maxy : ℚ
deriving DecidableEq

/-- The capability surface of a shapely geometry that `grid.py` uses:
its `bounds` tuple `(minx, miny, maxx, maxy)` and its boolean
`intersects` predicate against an axis-aligned box. -/
structure Geom where
  bounds : ℚ × ℚ × ℚ × ℚ
  intersects : Box → Bool

/-- Length of `numpy.arange start stop step`: `⌈(stop - start)/step⌉`,
clamped at zero. -/
def arangeLen (start stop step : ℚ) : ℕ :=
  (Int.ceil ((stop - start) / step)).toNat

/-- `numpy.arange start stop step` for float dtype: the `i`-th element is
`start + i * step` (index multiplication, not repeated addition). -/
def arange (start stop step : ℚ) : List ℚ :=
  (List.range (arangeLen start stop step)).map (fun (i : ℕ) => start + (i : ℚ) * step)

/-- `grid.get_ll_points`: the nested generator
`for x in np.arange(minx - offset, maxx + offset, cell_size): for y in
np.arange(miny - offset, maxy + offset, cell_size): yield (x, y)`. -/
def get_ll_points (minx maxx miny maxy offset cell_size : ℚ) : List (ℚ × ℚ) :=
  (arange (minx - offset) (maxx + offset) cell_size).flatMap
    (fun x => (arange (miny - offset) (maxy + offset) cell_size).map (fun y => (x, y)))

/-- The box built from a lower-left point in `get_grid_intersections`:
`box(*ll_point, *(ll_point + (cell_size, cell_size)))`. -/
def cellBox (cell_size : ℚ) (ll_point : ℚ × ℚ) : Box :=
  ⟨ll_point.1, ll_point.2, ll_point.1 + cell_size, ll_point.2 + cell_size⟩

/-- `grid.get_grid_intersections`: for each lower-left point build the
cell box and yield it iff it intersects the geometry. -/
def get_grid_intersections (geom : Geom) : List (ℚ × ℚ) → ℚ → List Box
  | [], _ => []
  | ll_point :: rest, cell_size =>
    let bbox := cellBox cell_size ll_point
    if geom.intersects bbox then bbox :: get_grid_intersections geom rest cell_size
    else get_grid_intersections geom rest cell_size

/-- The geometry's bounds: `(minx, miny, maxx, maxy)`. -/
def Geom.minx (g : Geom) : ℚ := g.bounds.1

/-- Second component of `bounds`. -/
def Geom.miny (g : Geom) : ℚ := g.bounds.2.1

/-- Third component of `bounds`. -/
def Geom.maxx (g : Geom) : ℚ := g.bounds.2.2.1

/-- Fourth component of `bounds`. -/
def Geom.maxy (g : Geom) : ℚ := g.bounds.2.2.2

/-- `grid.get_cells`: floor/ceil the geometry's bounds to whole units,
enumerate lower-left candidates, filter by intersection. -/
def get_cells (geom : Geom) (cell_size : ℚ) (offset : ℚ := 0) : List Box :=
  get_grid_intersections geom
    (get_ll_points (⌊geom.minx⌋ : ℚ) (⌈geom.maxx⌉ : ℚ) (⌊geom.miny⌋ : ℚ) (⌈geom.maxy⌉ : ℚ)
      offset cell_size)
    cell_size

/-- Python's `round` to an integer: round-half-to-even. -/
def roundHalfEven (q : ℚ) : ℤ :=
  if q - (⌊q⌋ : ℚ) = 1/2 then (if ⌊q⌋ % 2 = 0 then ⌊q⌋ else ⌊q⌋ + 1)
  else round q

/-- Python's `round(q, d)` for `d ≥ 0` digits. -/
def pyRound (q : ℚ) (d : ℕ) : ℚ :=
  (roundHalfEven (q * 10 ^ d) : ℚ) / 10 ^ d

/-- Centroid of a box polygon (`cell.centroid.coords[0]` for a cell
built by `shapely.geometry.box`). -/
def centroidOf (b : Box) : ℚ × ℚ :=
  ((b.minx + b.maxx) / 2, (b.miny + b.maxy) / 2)

/-- `grid.get_centroids`: yield each cell's centroid, rounded to
`round_digits` decimal digits when that argument is given. -/
def get_centroids (cells : List Box) (round_digits : Option ℕ) : List (ℚ × ℚ) :=
  cells.map (fun cell =>
    match round_digits with
    | none => centroidOf cell
    | some d => (pyRound (centroidOf cell).1 d, pyRound (centroidOf cell).2 d))

/-- A box-polygon geometry spanning `[x0, x1] × [y0, y1]`, with shapely's
closed-region semantics: it intersects an axis-aligned box iff the two
closed rectangles overlap on both axes (touching counts). -/
def rectGeom (x0 y0 x1 y1 : ℚ) : Geom :=
  ⟨(x0, y0, x1, y1), fun b => decide (b.minx ≤ x1 ∧ x0 ≤ b.maxx ∧ b.miny ≤ y1 ∧ y0 ≤ b.maxy)⟩

/-- The same rectangle geometry with the intersection conjuncts tested in
a different order; extensionally equal `intersects`. -/
def rectGeomSwapped (x0 y0 x1 y1 : ℚ) : Geom :=
  ⟨(x0, y0, x1, y1), fun b => decide (x0 ≤ b.maxx ∧ b.minx ≤ x1 ∧ y0 ≤ b.maxy ∧ b.miny ≤ y1)⟩

/-- A degenerate point geometry at `(px, py)`: zero-area bounds, and it
intersects a closed box iff the point lies inside it. -/
def pointGeom (px py : ℚ) : Geom :=
  ⟨(px, py, px, py), fun b => decide (b.minx ≤ px ∧ px ≤ b.maxx ∧ b.miny ≤ py ∧ py ≤ b.maxy)⟩

/-- Strict lexicographic order on candidate points: increasing `x`,
then increasing `y`. -/
def lexLt (p q : ℚ × ℚ) : Prop :=
  p.1 < q.1 ∨ (p.1 = q.1 ∧ p.2 < q.2)

/-- Coverage of one axis by a coordinate list `vals` meant to span
`[lo, hi)` in steps of `c`: every value lies in `[lo, hi)`, consecutive
values differ by exactly `c`, the first value is `≤ lo`, and the last
value plus `c` reaches at least `hi`. -/
def coversAxis (vals : List ℚ) (lo hi c : ℚ) : Prop :=
  (∀ x ∈ vals, lo ≤ x ∧ x < hi) ∧
  (∀ (i : ℕ) (h : i + 1 < vals.length), vals[i + 1] = vals[i] + c) ∧
  (∀ h : vals ≠ [], vals.head h ≤ lo) ∧
  (∀ h : vals ≠ [], hi ≤ vals.getLast h + c)

/-! ## Basic lemmas about `arange` -/

theorem arange_length (s e c : ℚ) : (arange s e c).length = arangeLen s e c := by
  rw [arange, List.length_map, List.length_range]

theorem arange_getElem (s e c : ℚ) (i : ℕ) (h : i < (arange s e c).length) :
    (arange s e c)[i] = s + (i : ℚ) * c := by
  simp only [arange, List.getElem_map, List.getElem_range]

theorem mem_arange {x s e c : ℚ} :
    x ∈ arange s e c ↔ ∃ i : ℕ, i < arangeLen s e c ∧ x = s + (i : ℚ) * c := by
  simp only [arange, List.mem_map, List.mem_range]
  constructor
  · rintro ⟨i, hi, hx⟩
    exact ⟨i, hi, hx.symm⟩
  · rintro ⟨i, hi, hx⟩
    exact ⟨i, hi, hx.symm⟩

theorem arange_ne_nil {s e c : ℚ} :
    arange s e c ≠ [] ↔ 0 < arangeLen s e c := by
  rw [← List.length_pos, arange_length]

theorem arangeLen_pos_of_lt {s e c : ℚ} (hc : 0 < c) (h : s < e) :
    0 < arangeLen s e c := by
  have h1 : (0 : ℚ) < (e - s) / c := div_pos (by linarith) hc
  have h2 : (0 : ℤ) < ⌈(e - s) / c⌉ := by
    exact_mod_cast lt_of_lt_of_le h1 (Int.le_ceil _)
  simpa [arangeLen] using h2

theorem arange_head (s e c : ℚ) (h : arange s e c ≠ []) :
    (arange s e c).head h = s := by
  have h0 : 0 < (arange s e c).length := List.length_pos.mpr h
  have := arange_getElem s e c 0 h0
  rwa [← List.head_eq_getElem, Nat.cast_zero, zero_mul, add_zero] at this

theorem arange_getLast (s e c : ℚ) (h : arange s e c ≠ []) :
    (arange s e c).getLast h = s + ((arangeLen s e c : ℚ) - 1) * c := by
  have h0 : 0 < (arange s e c).length := List.length_pos.mpr h
  rw [List.getLast_eq_getElem, arange_getElem, arange_length]
  have hn : 0 < arangeLen s e c := by rwa [arange_length] at h0
  have hc : ((arangeLen s e c - 1 : ℕ) : ℚ) = (arangeLen s e c : ℚ) - 1 := by
    rw [Nat.cast_sub hn, Nat.cast_one]
  rw [hc]

theorem arange_last_add_step_ge {s e c : ℚ} (hc : 0 < c) (h : arange s e c ≠ []) :
    e ≤ (arange s e c).getLast h + c := by
  rw [arange_getLast]
  have hn : 0 < arangeLen s e c := arange_ne_nil.mp h
  have hceil : (0 : ℤ) < ⌈(e - s) / c⌉ := by
    by_contra hle
    push_neg at hle
    have : arangeLen s e c = 0 := by simp [arangeLen, Int.toNat_of_nonpos hle]
    omega
  have hlen : (arangeLen s e c : ℤ) = ⌈(e - s) / c⌉ := Int.toNat_of_nonneg hceil.le
  have h1 : (e - s) / c ≤ (arangeLen s e c : ℚ) := by
    calc (e - s) / c ≤ (⌈(e - s) / c⌉ : ℚ) := Int.le_ceil _
    _ = ((arangeLen s e c : ℤ) : ℚ) := by rw [hlen]
    _ = (arangeLen s e c : ℚ) := by push_cast; ring
  have h2 : e - s ≤ (arangeLen s e c : ℚ) * c := by
    rwa [div_le_iff₀ hc] at h1
  linarith

theorem arange_consecutive (s e c : ℚ) (i : ℕ) (h : i + 1 < (arange s e c).length) :
    (arange s e c)[i + 1] = (arange s e c)[i] + c := by
  rw [arange_getElem, arange_getElem]
  push_cast
  ring

theorem arange_pairwise {s e c : ℚ} (hc : 0 < c) : (arange s e c).Pairwise (· < ·) := by
  rw [arange, List.pairwise_map]
  refine (List.pairwise_lt_range _).imp ?_
  intro i j hij
  have hq : (i : ℚ) < (j : ℚ) := by exact_mod_cast hij
  exact add_lt_add_left (mul_lt_mul_of_pos_right hq hc) s

/-! ## Lemmas about `get_ll_points` -/

theorem mem_get_ll_points {minx maxx miny maxy offset cs : ℚ} {p : ℚ × ℚ} :
    p ∈ get_ll_points minx maxx miny maxy offset cs ↔
      p.1 ∈ arange (minx - offset) (maxx + offset) cs ∧
      p.2 ∈ arange (miny - offset) (maxy + offset) cs := by
  rw [get_ll_points]
  simp only [List.mem_flatMap, List.mem_map]
  constructor
  · rintro ⟨x, hx, y, hy, rfl⟩
    exact ⟨hx, hy⟩
  · rintro ⟨h1, h2⟩
    exact ⟨p.1, h1, p.2, h2, rfl⟩

theorem pairwise_lexLt_product {xs ys : List ℚ}
    (hx : xs.Pairwise (· < ·)) (hy : ys.Pairwise (· < ·)) :
    (xs.flatMap (fun x => ys.map (fun y => (x, y)))).Pairwise lexLt := by
  induction xs with
  | nil => simp
  | cons x xs ih =>
    rcases List.pairwise_cons.mp hx with ⟨hxall, hxtail⟩
    rw [List.flatMap_cons]
    refine List.pairwise_append.mpr ⟨?_, ih hxtail, ?_⟩
    · rw [List.pairwise_map]
      exact hy.imp (fun {a b} hab => Or.inr ⟨rfl, hab⟩)
    · intro a ha b hb
      rcases List.mem_map.mp ha with ⟨y1, hy1, rfl⟩
      rcases List.mem_flatMap.mp hb with ⟨x2, hx2, hb2⟩
      rcases List.mem_map.mp hb2 with ⟨y2, hy2, rfl⟩
      exact Or.inl (hxall x2 hx2)

theorem pairwise_lexLt_get_ll_points {minx maxx miny maxy offset cs : ℚ} (hc : 0 < cs) :
    (get_ll_points minx maxx miny maxy offset cs).Pairwise lexLt :=
  pairwise_lexLt_product (arange_pairwise hc) (arange_pairwise hc)

/-! ## Lemmas about `get_grid_intersections` -/

theorem get_grid_intersections_eq_filter (g : Geom) (pts : List (ℚ × ℚ)) (cs : ℚ) :
    get_grid_intersections g pts cs = (pts.map (cellBox cs)).filter g.intersects := by
  induction pts with
  | nil => rfl
  | cons p ps ih =>
    simp only [get_grid_intersections, List.map_cons, List.filter_cons, ih]

theorem mem_get_grid_intersections {g : Geom} {pts : List (ℚ × ℚ)} {cs : ℚ} {b : Box} :
    b ∈ get_grid_intersections g pts cs ↔
      (∃ p ∈ pts, b = cellBox cs p) ∧ g.intersects b = true := by
  rw [get_grid_intersections_eq_filter, List.mem_filter, List.mem_map]
  tauto

/-! ## Range coverage -/

theorem arange_mem_bounds {s e c : ℚ} (hc : 0 < c) {x : ℚ} (hx : x ∈ arange s e c) :
    s ≤ x ∧ x < e := by
  rcases mem_arange.mp hx with ⟨i, hi, rfl⟩
  constructor
  · have : (0 : ℚ) ≤ (i : ℚ) * c := mul_nonneg (Nat.cast_nonneg i) hc.le
    linarith
  · have hceil : (0 : ℤ) < ⌈(e - s) / c⌉ := by
      by_contra hle
      push_neg at hle
      have : arangeLen s e c = 0 := by simp [arangeLen, Int.toNat_of_nonpos hle]
      omega
    have hlen : ((arangeLen s e c : ℕ) : ℤ) = ⌈(e - s) / c⌉ := Int.toNat_of_nonneg hceil.le
    have hi1 : (i : ℤ) + 1 ≤ ⌈(e - s) / c⌉ := by
      rw [← hlen]
      exact_mod_cast hi
    have h2 : ((i : ℚ)) ≤ (⌈(e - s) / c⌉ : ℚ) - 1 := by
      have : ((i : ℤ) + 1 : ℚ) ≤ ((⌈(e - s) / c⌉ : ℤ) : ℚ) := by
        exact_mod_cast hi1
      push_cast at this ⊢
      linarith
    have h3 : ((⌈(e - s) / c⌉ : ℚ)) - 1 < (e - s) / c := by
      have := Int.ceil_lt_add_one ((e - s) / c)
      push_cast at this
      linarith
    have h4 : (i : ℚ) < (e - s) / c := lt_of_le_of_lt h2 h3
    have h5 : (i : ℚ) * c < e - s := by
      rw [div_eq_mul_inv] at h4
      calc (i : ℚ) * c < ((e - s) * c⁻¹) * c := by
            exact mul_lt_mul_of_pos_right h4 hc
      _ = e - s := by
            field_simp
    linarith

theorem coversAxis_arange (lo hi c : ℚ) (hc : 0 < c) :
    coversAxis (arange lo hi c) lo hi c := by
  refine ⟨fun x hx => arange_mem_bounds hc hx, ?_, ?_, ?_⟩
  · exact fun i h => arange_consecutive lo hi c i h
  · intro h
    rw [arange_head lo hi c h]
  · intro h
    exact arange_last_add_step_ge hc h

/-! ## Degenerate and point geometries -/

theorem arange_self (s c : ℚ) : arange s s c = [] := by
  simp [arange, arangeLen]

theorem get_ll_points_eq_nil_left (minx maxx miny maxy offset cs : ℚ)
    (h : arange (minx - offset) (maxx + offset) cs = []) :
    get_ll_points minx maxx miny maxy offset cs = [] := by
  rw [get_ll_points, h]
  rfl

theorem get_ll_points_eq_nil_right (minx maxx miny maxy offset cs : ℚ)
    (h : arange (miny - offset) (maxy + offset) cs = []) :
    get_ll_points minx maxx miny maxy offset cs = [] := by
  rw [get_ll_points, h]
  simp

theorem pointGeom_minx (px py : ℚ) : (pointGeom px py).minx = px := rfl

theorem pointGeom_miny (px py : ℚ) : (pointGeom px py).miny = py := rfl

theorem pointGeom_maxx (px py : ℚ) : (pointGeom px py).maxx = px := rfl

theorem pointGeom_maxy (px py : ℚ) : (pointGeom px py).maxy = py := rfl

/-- If a coordinate is a non-integer rational, its ceiling is its floor
plus one. -/
theorem ceil_eq_floor_add_one_of_ne {q : ℚ} (h : q ≠ (⌊q⌋ : ℚ)) :
    (⌈q⌉ : ℤ) = ⌊q⌋ + 1 := by
  have h1 : (⌊q⌋ : ℚ) < q := lt_of_le_of_ne (Int.floor_le q) (Ne.symm h)
  have h2 : (⌈q⌉ : ℤ) ≤ ⌊q⌋ + 1 := Int.ceil_le_floor_add_one q
  have h3 : (⌊q⌋ : ℤ) < ⌈q⌉ := by
    have := Int.le_ceil q
    have : (⌊q⌋ : ℚ) < (⌈q⌉ : ℚ) := lt_of_lt_of_le h1 this
    exact_mod_cast this
  omega

/-- For a non-integer coordinate `v` and positive step `c`, some step
interval of the enumeration starting at `⌊v⌋` contains `v`. -/
theorem point_axis_hit {v c : ℚ} (hc : 0 < c) (hv : v ≠ (⌊v⌋ : ℚ)) :
    ∃ i : ℕ, i < arangeLen ((⌊v⌋ : ℚ) - 0) ((⌈v⌉ : ℚ) + 0) c ∧
      (⌊v⌋ : ℚ) + (i : ℚ) * c ≤ v ∧ v ≤ (⌊v⌋ : ℚ) + (i : ℚ) * c + c := by
  have hfl : (⌊v⌋ : ℚ) < v := lt_of_le_of_ne (Int.floor_le v) (Ne.symm hv)
  have ht0 : 0 < v - (⌊v⌋ : ℚ) := by linarith
  have ht1 : v - (⌊v⌋ : ℚ) < 1 := by
    have := Int.lt_floor_add_one v
    linarith
  have hnn : (0 : ℤ) ≤ ⌊(v - (⌊v⌋ : ℚ)) / c⌋ :=
    Int.floor_nonneg.mpr (div_nonneg ht0.le hc.le)
  have hiq : (((⌊(v - (⌊v⌋ : ℚ)) / c⌋).toNat : ℕ) : ℚ) = ((⌊(v - (⌊v⌋ : ℚ)) / c⌋ : ℤ) : ℚ) := by
    exact_mod_cast Int.toNat_of_nonneg hnn
  have hle : (((⌊(v - (⌊v⌋ : ℚ)) / c⌋).toNat : ℕ) : ℚ) ≤ (v - (⌊v⌋ : ℚ)) / c := by
    rw [hiq]
    exact Int.floor_le _
  have hlt1 : (v - (⌊v⌋ : ℚ)) / c < (((⌊(v - (⌊v⌋ : ℚ)) / c⌋).toNat : ℕ) : ℚ) + 1 := by
    rw [hiq]
    exact Int.lt_floor_add_one _
  refine ⟨(⌊(v - (⌊v⌋ : ℚ)) / c⌋).toNat, ?_, ?_, ?_⟩
  · have hceil : ((⌈v⌉ : ℚ) + 0 - ((⌊v⌋ : ℚ) - 0)) = 1 := by
      have h := ceil_eq_floor_add_one_of_ne hv
      have h2 : ((⌈v⌉ : ℤ) : ℚ) = ((⌊v⌋ : ℤ) : ℚ) + 1 := by
        rw [h]
        push_cast
        ring
      rw [h2]
      ring
    have hb : (v - (⌊v⌋ : ℚ)) / c < 1 / c := by
      have := mul_lt_mul_of_pos_right ht1 (inv_pos.mpr hc)
      simpa [div_eq_mul_inv] using this
    have hcc : (1 : ℚ) / c ≤ (⌈(1 : ℚ) / c⌉ : ℚ) := Int.le_ceil _
    have hlt : ⌊(v - (⌊v⌋ : ℚ)) / c⌋ < ⌈(1 : ℚ) / c⌉ := by
      have ha : (⌊(v - (⌊v⌋ : ℚ)) / c⌋ : ℚ) ≤ (v - (⌊v⌋ : ℚ)) / c := Int.floor_le _
      exact_mod_cast lt_of_le_of_lt ha (lt_of_lt_of_le hb hcc)
    rw [arangeLen, hceil]
    omega
  · have h2 : (((⌊(v - (⌊v⌋ : ℚ)) / c⌋).toNat : ℕ) : ℚ) * c ≤ v - (⌊v⌋ : ℚ) := by
      rwa [← le_div_iff₀ hc]
    linarith
  · have h2 : v - (⌊v⌋ : ℚ) ≤ ((((⌊(v - (⌊v⌋ : ℚ)) / c⌋).toNat : ℕ) : ℚ) + 1) * c := by
      have h3 := hlt1.le
      rwa [div_le_iff₀ hc] at h3
    linarith

/-- `arange` is empty when the stop does not exceed the start (positive
step). -/
theorem arange_eq_nil_of_stop_le_start {s e c : ℚ} (hc : 0 < c) (h : e ≤ s) :
    arange s e c = [] := by
  have h1 : (e - s) / c ≤ 0 := by
    apply div_nonpos_of_nonpos_of_nonneg (by linarith) hc.le
  have h2 : ⌈(e - s) / c⌉ ≤ 0 := Int.ceil_le.mpr (by exact_mod_cast h1)
  have h3 : arangeLen s e c = 0 := by
    simp [arangeLen, Int.toNat_of_nonpos h2]
  simp [arange, h3]

/-- Unfolding `get_cells` at a point geometry. -/
theorem get_cells_point (px py cs offset : ℚ) :
    get_cells (pointGeom px py) cs offset =
      get_grid_intersections (pointGeom px py)
        (get_ll_points ((⌊px⌋ : ℚ)) ((⌈px⌉ : ℚ)) ((⌊py⌋ : ℚ)) ((⌈py⌉ : ℚ)) offset cs) cs :=
  rfl

/-- With offset 0, the cells of a point geometry are empty exactly when
some coordinate of the point is an integer. -/
theorem get_cells_point_eq_nil_iff (px py cs : ℚ) (hcs : 0 < cs) :
    get_cells (pointGeom px py) cs 0 = [] ↔
      px = (⌊px⌋ : ℚ) ∨ py = (⌊py⌋ : ℚ) := by
  rw [get_cells_point]
  constructor
  · intro h
    by_contra hni
    push_neg at hni
    obtain ⟨hx, hy⟩ := hni
    obtain ⟨i, hi, hxl, hxr⟩ := point_axis_hit hcs hx
    obtain ⟨j, hj, hyl, hyr⟩ := point_axis_hit hcs hy
    have hpx : ((⌊px⌋ : ℚ) - 0) + (i : ℚ) * cs ∈ arange ((⌊px⌋ : ℚ) - 0) ((⌈px⌉ : ℚ) + 0) cs :=
      mem_arange.mpr ⟨i, hi, rfl⟩
    have hpy : ((⌊py⌋ : ℚ) - 0) + (j : ℚ) * cs ∈ arange ((⌊py⌋ : ℚ) - 0) ((⌈py⌉ : ℚ) + 0) cs :=
      mem_arange.mpr ⟨j, hj, rfl⟩
    have hp : (((⌊px⌋ : ℚ) - 0) + (i : ℚ) * cs, ((⌊py⌋ : ℚ) - 0) + (j : ℚ) * cs) ∈
        get_ll_points ((⌊px⌋ : ℚ)) ((⌈px⌉ : ℚ)) ((⌊py⌋ : ℚ)) ((⌈py⌉ : ℚ)) 0 cs :=
      mem_get_ll_points.mpr ⟨hpx, hpy⟩
    have hint : (pointGeom px py).intersects
        (cellBox cs (((⌊px⌋ : ℚ) - 0) + (i : ℚ) * cs, ((⌊py⌋ : ℚ) - 0) + (j : ℚ) * cs)) = true := by
      simp only [pointGeom, cellBox, decide_eq_true_eq]
      refine ⟨by linarith, by linarith, by linarith, by linarith⟩
    have hmem : cellBox cs (((⌊px⌋ : ℚ) - 0) + (i : ℚ) * cs, ((⌊py⌋ : ℚ) - 0) + (j : ℚ) * cs) ∈
        get_grid_intersections (pointGeom px py)
          (get_ll_points ((⌊px⌋ : ℚ)) ((⌈px⌉ : ℚ)) ((⌊py⌋ : ℚ)) ((⌈py⌉ : ℚ)) 0 cs) cs :=
      mem_get_grid_intersections.mpr ⟨⟨_, hp, rfl⟩, hint⟩
    rw [h] at hmem
    exact List.not_mem_nil _ hmem
  · rintro (hx | hy)
    · have hce : (⌈px⌉ : ℤ) = ⌊px⌋ := by
        conv_lhs => rw [hx]
        exact Int.ceil_intCast _
      have hnil : arange ((⌊px⌋ : ℚ) - 0) ((⌈px⌉ : ℚ) + 0) cs = [] := by
        apply arange_eq_nil_of_stop_le_start hcs
        rw [hce]
        linarith
      rw [get_ll_points_eq_nil_left _ _ _ _ _ _ hnil]
      rfl
    · have hce : (⌈py⌉ : ℤ) = ⌊py⌋ := by
        conv_lhs => rw [hy]
        exact Int.ceil_intCast _
      have hnil : arange ((⌊py⌋ : ℚ) - 0) ((⌈py⌉ : ℚ) + 0) cs = [] := by
        apply arange_eq_nil_of_stop_le_start hcs
        rw [hce]
        linarith
      rw [get_ll_points_eq_nil_right _ _ _ _ _ _ hnil]
      rfl

/-- `arange` with a negative step and non-decreasing endpoints is empty
(numpy yields an empty array in that case). -/
theorem arange_eq_nil_of_neg_step {s e c : ℚ} (hc : c < 0) (h : s ≤ e) :
    arange s e c = [] := by
  have h1 : (e - s) / c ≤ 0 := by
    rw [div_nonpos_iff]
    left
    exact ⟨by linarith, hc.le⟩
  have h2 : ⌈(e - s) / c⌉ ≤ 0 := Int.ceil_le.mpr (by exact_mod_cast h1)
  have h3 : arangeLen s e c = 0 := by
    simp [arangeLen, Int.toNat_of_nonpos h2]
  simp [arange, h3]

theorem getD_map_of_lt {α β : Type}
    (f : α → β) (l : List α) (i : ℕ) (h : i < l.length) (d0 : α) (d1 : β) :
    (l.map f).getD i d1 = f (l.getD i d0) := by
  have h2 : i < (l.map f).length := by
    rwa [List.length_map]
  rw [List.getD_eq_getElem _ _ h2, List.getD_eq_getElem _ _ h, List.getElem_map]

/-! ## Concrete evaluations used by specific scenarios -/

theorem arange_eval_0_2_1 : arange 0 2 1 = [0, 1] := by
  have hl : arangeLen 0 2 1 = 2 := by
    norm_num [arangeLen]
    rfl
  rw [arange, hl]
  norm_num [List.range_succ]

theorem arange_eval_neg1_2_1 : arange (-1) 2 1 = [-1, 0, 1] := by
  have hl : arangeLen (-1) 2 1 = 3 := by
    norm_num [arangeLen]
    rfl
  rw [arange, hl]
  norm_num [List.range_succ]

theorem arange_eval_0_1_1 : arange 0 1 1 = [0] := by
  have hl : arangeLen 0 1 1 = 1 := by
    norm_num [arangeLen]
  rw [arange, hl]
  norm_num [List.range_succ]

/-! ## Claims -/

/-- C1: for every geometry with finite bounds, cellSize > 0 and offset in
`[0, cellSize)`, the candidate enumeration covers the bounding box
extended to whole-unit boundaries: the x values are the closed-open range
`[⌊minx⌋ - offset, ⌈maxx⌉ + offset)` stepped by cellSize (y likewise),
consecutive values differ by exactly cellSize, the first value is
`≤ ⌊minx⌋ - offset`, and the last value plus cellSize is
`≥ ⌈maxx⌉ + offset`; these are exactly the axes of `get_ll_points` as
invoked by `get_cells`. -/
theorem claim_C1 (g : Geom) (cs offset : ℚ)
    (hcs : 0 < cs) (hoff0 : 0 ≤ offset) (hoffc : offset < cs) :
    coversAxis (arange ((⌊g.minx⌋ : ℚ) - offset) ((⌈g.maxx⌉ : ℚ) + offset) cs)
      ((⌊g.minx⌋ : ℚ) - offset) ((⌈g.maxx⌉ : ℚ) + offset) cs ∧
    coversAxis (arange ((⌊g.miny⌋ : ℚ) - offset) ((⌈g.maxy⌉ : ℚ) + offset) cs)
      ((⌊g.miny⌋ : ℚ) - offset) ((⌈g.maxy⌉ : ℚ) + offset) cs ∧
    get_ll_points ((⌊g.minx⌋ : ℚ)) ((⌈g.maxx⌉ : ℚ)) ((⌊g.miny⌋ : ℚ)) ((⌈g.maxy⌉ : ℚ)) offset cs =
      (arange ((⌊g.minx⌋ : ℚ) - offset) ((⌈g.maxx⌉ : ℚ) + offset) cs).flatMap
        (fun x => (arange ((⌊g.miny⌋ : ℚ) - offset) ((⌈g.maxy⌉ : ℚ) + offset) cs).map
          (fun y => (x, y))) :=
  ⟨coversAxis_arange _ _ _ hcs, coversAxis_arange _ _ _ hcs, rfl⟩

/-- Witness for C1 at the square `[0, 2] × [0, 2]`, cellSize 1,
offset 0. -/
theorem claim_C1_witness :
    coversAxis (arange ((⌊(rectGeom 0 0 2 2).minx⌋ : ℚ) - 0) ((⌈(rectGeom 0 0 2 2).maxx⌉ : ℚ) + 0) 1)
      ((⌊(rectGeom 0 0 2 2).minx⌋ : ℚ) - 0) ((⌈(rectGeom 0 0 2 2).maxx⌉ : ℚ) + 0) 1 ∧
    coversAxis (arange ((⌊(rectGeom 0 0 2 2).miny⌋ : ℚ) - 0) ((⌈(rectGeom 0 0 2 2).maxy⌉ : ℚ) + 0) 1)
      ((⌊(rectGeom 0 0 2 2).miny⌋ : ℚ) - 0) ((⌈(rectGeom 0 0 2 2).maxy⌉ : ℚ) + 0) 1 ∧
    get_ll_points ((⌊(rectGeom 0 0 2 2).minx⌋ : ℚ)) ((⌈(rectGeom 0 0 2 2).maxx⌉ : ℚ))
        ((⌊(rectGeom 0 0 2 2).miny⌋ : ℚ)) ((⌈(rectGeom 0 0 2 2).maxy⌉ : ℚ)) 0 1 =
      (arange ((⌊(rectGeom 0 0 2 2).minx⌋ : ℚ) - 0) ((⌈(rectGeom 0 0 2 2).maxx⌉ : ℚ) + 0) 1).flatMap
        (fun x => (arange ((⌊(rectGeom 0 0 2 2).miny⌋ : ℚ) - 0)
          ((⌈(rectGeom 0 0 2 2).maxy⌉ : ℚ) + 0) 1).map (fun y => (x, y))) :=
  claim_C1 (rectGeom 0 0 2 2) 1 0 (by norm_num) (le_refl 0) (by norm_num)

/-- C5: the i-th coordinate value produced by the enumerator equals
`start + i * cellSize`, computed by index multiplication from the start
value (numpy's fill), so boundaries do not drift across steps. -/
theorem claim_C5 (start stop cell_size : ℚ) (hc : 0 < cell_size) (i : ℕ)
    (h : i < (arange start stop cell_size).length) :
    (arange start stop cell_size).getD i 0 = start + (i : ℚ) * cell_size := by
  rw [List.getD_eq_getElem _ _ h]
  exact arange_getElem _ _ _ i h

/-- Witness for C5: the third value of `arange 0 1 (1/4)` is `2 · 1/4`. -/
theorem claim_C5_witness :
    2 < (arange 0 1 (1/4)).length ∧
    (arange 0 1 (1/4)).getD 2 0 = 0 + (2 : ℚ) * (1/4) := by
  have hlen : 2 < (arange 0 1 (1/4 : ℚ)).length := by
    rw [arange_length]
    norm_num [arangeLen]
  exact ⟨hlen, claim_C5 0 1 (1/4) (by norm_num) 2 hlen⟩

/-- C7: the enumerator yields the full cross product of the x and y value
lists in row-major order (x outer, y inner), both ascending, and the
output is a pure function of its arguments (identical on every run). -/
theorem claim_C7 (minx maxx miny maxy offset cs : ℚ)
    (hcs : 0 < cs) (hoff0 : 0 ≤ offset) (hoffc : offset < cs) :
    get_ll_points minx maxx miny maxy offset cs =
      (arange (minx - offset) (maxx + offset) cs).flatMap
        (fun x => (arange (miny - offset) (maxy + offset) cs).map (fun y => (x, y))) ∧
    (∀ p : ℚ × ℚ, p ∈ get_ll_points minx maxx miny maxy offset cs ↔
      p.1 ∈ arange (minx - offset) (maxx + offset) cs ∧
      p.2 ∈ arange (miny - offset) (maxy + offset) cs) ∧
    (get_ll_points minx maxx miny maxy offset cs).Pairwise lexLt :=
  ⟨rfl, fun _ => mem_get_ll_points, pairwise_lexLt_get_ll_points hcs⟩

/-- Witness for C7 on the box `(0, 0, 2, 2)` with cellSize 1, offset 0:
the instantiated membership at `(0, 0)` and the sortedness of the
enumeration. -/
theorem claim_C7_witness :
    (((0 : ℚ), (0 : ℚ)) ∈ get_ll_points 0 2 0 2 0 1 ↔
      (0 : ℚ) ∈ arange (0 - 0) (2 + 0) 1 ∧ (0 : ℚ) ∈ arange (0 - 0) (2 + 0) 1) ∧
    (get_ll_points 0 2 0 2 0 1).Pairwise lexLt :=
  ⟨(claim_C7 0 2 0 2 0 1 (by norm_num) (le_refl 0) (by norm_num)).2.1 (0, 0),
   (claim_C7 0 2 0 2 0 1 (by norm_num) (le_refl 0) (by norm_num)).2.2⟩

/-- C4: the filter stage yields, in candidate order, exactly the boxes
from `(x, y)` to `(x + cellSize, y + cellSize)` that intersect the
geometry: the output is the order-preserving filter of the candidate
boxes, and a candidate's box appears in the output iff it intersects the
geometry. The embedding is purely functional, so neither the geometry
nor the candidate sequence is mutated. -/
theorem claim_C4 (g : Geom) (pts : List (ℚ × ℚ)) (cs : ℚ) :
    get_grid_intersections g pts cs = (pts.map (cellBox cs)).filter g.intersects ∧
    ∀ p ∈ pts, (cellBox cs p ∈ get_grid_intersections g pts cs ↔
      g.intersects (cellBox cs p) = true) := by
  refine ⟨get_grid_intersections_eq_filter g pts cs, fun p hp => ?_⟩
  rw [mem_get_grid_intersections]
  constructor
  · rintro ⟨-, hi⟩
    exact hi
  · intro hi
    exact ⟨⟨p, hp, rfl⟩, hi⟩

/-- Witness for C4 at the square geometry and the single candidate
`(0, 0)`. -/
theorem claim_C4_witness :
    (get_grid_intersections (rectGeom 0 0 2 2) [((0 : ℚ), (0 : ℚ))] 1 =
      ([((0 : ℚ), (0 : ℚ))].map (cellBox 1)).filter (rectGeom 0 0 2 2).intersects) ∧
    (cellBox 1 ((0 : ℚ), (0 : ℚ)) ∈
        get_grid_intersections (rectGeom 0 0 2 2) [((0 : ℚ), (0 : ℚ))] 1 ↔
      (rectGeom 0 0 2 2).intersects (cellBox 1 ((0 : ℚ), (0 : ℚ))) = true) :=
  ⟨(claim_C4 (rectGeom 0 0 2 2) [((0 : ℚ), (0 : ℚ))] 1).1,
   (claim_C4 (rectGeom 0 0 2 2) [((0 : ℚ), (0 : ℚ))] 1).2 (0, 0) (List.mem_singleton.mpr rfl)⟩

/-- C9: `get_cells` depends on the geometry only through its `bounds`
and its `intersects` predicate: two geometries agreeing on both yield
identical cell sequences. -/
theorem claim_C9 (g1 g2 : Geom) (cs offset : ℚ)
    (hb : g1.bounds = g2.bounds) (hi : ∀ b, g1.intersects b = g2.intersects b) :
    get_cells g1 cs offset = get_cells g2 cs offset := by
  have hfun : g1.intersects = g2.intersects := funext hi
  have h1 : g1.minx = g2.minx := by rw [Geom.minx, Geom.minx, hb]
  have h2 : g1.miny = g2.miny := by rw [Geom.miny, Geom.miny, hb]
  have h3 : g1.maxx = g2.maxx := by rw [Geom.maxx, Geom.maxx, hb]
  have h4 : g1.maxy = g2.maxy := by rw [Geom.maxy, Geom.maxy, hb]
  rw [get_cells, get_cells, h1, h2, h3, h4, get_grid_intersections_eq_filter,
    get_grid_intersections_eq_filter, hfun]

/-- Witness for C9: the same rectangle with its intersection test
written in a different conjunct order gives identical cells. -/
theorem claim_C9_witness :
    get_cells (rectGeom 0 0 2 2) 1 0 = get_cells (rectGeomSwapped 0 0 2 2) 1 0 :=
  claim_C9 (rectGeom 0 0 2 2) (rectGeomSwapped 0 0 2 2) 1 0 rfl (fun b => by
    simp only [rectGeom, rectGeomSwapped]
    exact decide_eq_decide.mpr (by tauto))

/-- C8: for the square polygon spanning `[0, 2] × [0, 2]` with
cellSize 1 and offset 0, the pipeline returns exactly the 4 cells with
lower-left origins (0,0), (0,1), (1,0), (1,1). -/
theorem claim_C8 :
    get_cells (rectGeom 0 0 2 2) 1 0 =
      [cellBox 1 (0, 0), cellBox 1 (0, 1), cellBox 1 (1, 0), cellBox 1 (1, 1)] := by
  rw [get_cells]
  norm_num [Geom.minx, Geom.miny, Geom.maxx, Geom.maxy, rectGeom, get_ll_points,
    arange_eval_0_2_1, get_grid_intersections, cellBox]

/-- C6: `get_centroids` yields exactly one centerpoint per square cell,
in input order; each centerpoint is the cell's lower-left corner plus
half the cell size in each coordinate; with rounding requested both
coordinates are rounded to the given number of decimal digits (in
particular (0.333333, 0.666667) with one digit rounds to (0.3, 0.7)),
and without it they are yielded unrounded. -/
theorem claim_C6 (cells : List Box) (cs : ℚ) (d : ℕ) (r : Option ℕ)
    (hsq : ∀ b ∈ cells, b.maxx = b.minx + cs ∧ b.maxy = b.miny + cs) :
    (get_centroids cells r).length = cells.length ∧
    (∀ i : ℕ, i < cells.length →
      (get_centroids cells none).getD i (0, 0) =
        ((cells.getD i ⟨0, 0, 0, 0⟩).minx + cs / 2,
         (cells.getD i ⟨0, 0, 0, 0⟩).miny + cs / 2)) ∧
    (∀ i : ℕ, i < cells.length →
      (get_centroids cells (some d)).getD i (0, 0) =
        (pyRound ((cells.getD i ⟨0, 0, 0, 0⟩).minx + cs / 2) d,
         pyRound ((cells.getD i ⟨0, 0, 0, 0⟩).miny + cs / 2) d)) ∧
    get_centroids [⟨333333/1000000 - 1/2, 666667/1000000 - 1/2,
        333333/1000000 + 1/2, 666667/1000000 + 1/2⟩] (some 1) = [(3/10, 7/10)] := by
  refine ⟨?_, ?_, ?_, ?_⟩
  · rw [get_centroids, List.length_map]
  · intro i hi
    rw [get_centroids, getD_map_of_lt _ cells i hi ⟨0, 0, 0, 0⟩ (0, 0)]
    have hm : cells.getD i ⟨0, 0, 0, 0⟩ ∈ cells := by
      rw [List.getD_eq_getElem _ _ hi]
      exact List.getElem_mem _
    obtain ⟨hx, hy⟩ := hsq _ hm
    simp only [centroidOf, hx, hy, Prod.mk.injEq]
    constructor <;> ring
  · intro i hi
    rw [get_centroids, getD_map_of_lt _ cells i hi ⟨0, 0, 0, 0⟩ (0, 0)]
    have hm : cells.getD i ⟨0, 0, 0, 0⟩ ∈ cells := by
      rw [List.getD_eq_getElem _ _ hi]
      exact List.getElem_mem _
    obtain ⟨hx, hy⟩ := hsq _ hm
    have e1 : (centroidOf (cells.getD i ⟨0, 0, 0, 0⟩)).1 =
        (cells.getD i ⟨0, 0, 0, 0⟩).minx + cs / 2 := by
      simp only [centroidOf, hx]
      ring
    have e2 : (centroidOf (cells.getD i ⟨0, 0, 0, 0⟩)).2 =
        (cells.getD i ⟨0, 0, 0, 0⟩).miny + cs / 2 := by
      simp only [centroidOf, hy]
      ring
    show (pyRound (centroidOf (cells.getD i ⟨0, 0, 0, 0⟩)).1 d,
        pyRound (centroidOf (cells.getD i ⟨0, 0, 0, 0⟩)).2 d) = _
    rw [e1, e2]
  · have hf1 : Int.fract ((333333 : ℚ)/100000) = 33333/100000 := by
      rw [Int.fract]
      norm_num
    have hf2 : Int.fract ((666667 : ℚ)/100000) = 66667/100000 := by
      rw [Int.fract]
      norm_num
    norm_num [get_centroids, centroidOf, pyRound, roundHalfEven, round_eq, hf1, hf2]

/-- Witness for C6 on the single unit cell at the origin. -/
theorem claim_C6_witness :
    ((get_centroids [(⟨0, 0, 1, 1⟩ : Box)] none).length = [(⟨0, 0, 1, 1⟩ : Box)].length ∧
    (∀ i : ℕ, i < [(⟨0, 0, 1, 1⟩ : Box)].length →
      (get_centroids [(⟨0, 0, 1, 1⟩ : Box)] none).getD i (0, 0) =
        (([(⟨0, 0, 1, 1⟩ : Box)].getD i ⟨0, 0, 0, 0⟩).minx + 1 / 2,
         ([(⟨0, 0, 1, 1⟩ : Box)].getD i ⟨0, 0, 0, 0⟩).miny + 1 / 2)) ∧
    (∀ i : ℕ, i < [(⟨0, 0, 1, 1⟩ : Box)].length →
      (get_centroids [(⟨0, 0, 1, 1⟩ : Box)] (some 1)).getD i (0, 0) =
        (pyRound (([(⟨0, 0, 1, 1⟩ : Box)].getD i ⟨0, 0, 0, 0⟩).minx + 1 / 2) 1,
         pyRound (([(⟨0, 0, 1, 1⟩ : Box)].getD i ⟨0, 0, 0, 0⟩).miny + 1 / 2) 1)) ∧
    get_centroids [⟨333333/1000000 - 1/2, 666667/1000000 - 1/2,
        333333/1000000 + 1/2, 666667/1000000 + 1/2⟩] (some 1) = [(3/10, 7/10)]) :=
  claim_C6 [(⟨0, 0, 1, 1⟩ : Box)] 1 1 none (by
    intro b hb
    rw [List.mem_singleton.mp hb]
    exact ⟨by norm_num, by norm_num⟩)

/-- C2 counterexample: with cellSize 1 and offset 1 (offset outside
`[0, cellSize)`) on the unit square, the code raises nothing and the
enumeration runs to completion, yielding 9 cells — so no configuration
error occurs and output is produced. -/
theorem claim_C2_counterexample :
    get_cells (rectGeom 0 0 1 1) 1 1 ≠ [] ∧
    (get_cells (rectGeom 0 0 1 1) 1 1).length = 9 := by
  have heval : get_cells (rectGeom 0 0 1 1) 1 1 =
      [cellBox 1 (-1, -1), cellBox 1 (-1, 0), cellBox 1 (-1, 1),
       cellBox 1 (0, -1), cellBox 1 (0, 0), cellBox 1 (0, 1),
       cellBox 1 (1, -1), cellBox 1 (1, 0), cellBox 1 (1, 1)] := by
    rw [get_cells]
    norm_num [Geom.minx, Geom.miny, Geom.maxx, Geom.maxy, rectGeom, get_ll_points,
      arange_eval_neg1_2_1, get_grid_intersections, cellBox]
  rw [heval]
  exact ⟨by simp, rfl⟩

/-- C2 amended: the code performs no validation of cellSize or offset
and raises no error; an offset outside `[0, cellSize)` is simply used in
the enumeration (see the counterexample), and a negative cellSize makes
both coordinate ranges empty, so no candidate points and no cells are
produced. -/
theorem claim_C2_amended (g : Geom) (cs offset : ℚ)
    (hcs : cs < 0) (hoff : 0 ≤ offset) (hbx : g.minx ≤ g.maxx) :
    get_ll_points ((⌊g.minx⌋ : ℚ)) ((⌈g.maxx⌉ : ℚ)) ((⌊g.miny⌋ : ℚ)) ((⌈g.maxy⌉ : ℚ))
      offset cs = [] ∧
    get_cells g cs offset = [] := by
  have hse : (⌊g.minx⌋ : ℚ) - offset ≤ (⌈g.maxx⌉ : ℚ) + offset := by
    have h1 : (⌊g.minx⌋ : ℚ) ≤ g.minx := Int.floor_le _
    have h2 : g.maxx ≤ (⌈g.maxx⌉ : ℚ) := Int.le_ceil _
    linarith
  have hx : arange ((⌊g.minx⌋ : ℚ) - offset) ((⌈g.maxx⌉ : ℚ) + offset) cs = [] :=
    arange_eq_nil_of_neg_step hcs hse
  have hpts : get_ll_points ((⌊g.minx⌋ : ℚ)) ((⌈g.maxx⌉ : ℚ)) ((⌊g.miny⌋ : ℚ))
      ((⌈g.maxy⌉ : ℚ)) offset cs = [] :=
    get_ll_points_eq_nil_left _ _ _ _ _ _ hx
  refine ⟨hpts, ?_⟩
  rw [get_cells, hpts]
  rfl

/-- Witness for the amended C2 at the unit square with cellSize −1,
offset 0. -/
theorem claim_C2_amended_witness :
    get_ll_points ((⌊(rectGeom 0 0 1 1).minx⌋ : ℚ)) ((⌈(rectGeom 0 0 1 1).maxx⌉ : ℚ))
      ((⌊(rectGeom 0 0 1 1).miny⌋ : ℚ)) ((⌈(rectGeom 0 0 1 1).maxy⌉ : ℚ)) 0 (-1) = [] ∧
    get_cells (rectGeom 0 0 1 1) (-1) 0 = [] :=
  claim_C2_amended (rectGeom 0 0 1 1) (-1) 0 (by norm_num) (le_refl 0)
    (by norm_num [Geom.minx, Geom.maxx, rectGeom])

/-- C3 counterexample: the point geometry at (1/2, 1/2) has a zero-area
bounding box, yet `get_cells` with cellSize 1, offset 0 yields one cell
(the unit cell at the origin), not an empty sequence. -/
theorem claim_C3_counterexample :
    get_cells (pointGeom (1/2) (1/2)) 1 0 = [cellBox 1 (0, 0)] ∧
    get_cells (pointGeom (1/2) (1/2)) 1 0 ≠ [] := by
  have heval : get_cells (pointGeom (1/2) (1/2)) 1 0 = [cellBox 1 (0, 0)] := by
    have hceil : (⌈(1:ℚ)/2⌉ : ℤ) = 1 := by
      rw [Int.ceil_eq_iff]
      norm_num
    rw [get_cells]
    norm_num [Geom.minx, Geom.miny, Geom.maxx, Geom.maxy, pointGeom, get_ll_points,
      hceil, arange_eval_0_1_1, get_grid_intersections, cellBox]
  exact ⟨heval, by rw [heval]; simp⟩

/-- C3 amended: a zero-area-bounds geometry raises no error, but its
cell sequence is not always empty; it is empty when a coordinate range
collapses — e.g. a point with an integer coordinate at offset 0 — and
then the centerpoint sequence is empty as well. -/
theorem claim_C3_amended (px py cs : ℚ) (r : Option ℕ) (hcs : 0 < cs)
    (hone : px = (⌊px⌋ : ℚ) ∨ py = (⌊py⌋ : ℚ)) :
    get_cells (pointGeom px py) cs 0 = [] ∧
    get_centroids (get_cells (pointGeom px py) cs 0) r = [] := by
  have h := (get_cells_point_eq_nil_iff px py cs hcs).mpr hone
  refine ⟨h, ?_⟩
  rw [h]
  rfl

/-- Witness for the amended C3 at the point (1/2, 0) with cellSize 1:
the y coordinate is an integer, so no cells and no centroids result. -/
theorem claim_C3_amended_witness :
    get_cells (pointGeom (1/2) 0) 1 0 = [] ∧
    get_centroids (get_cells (pointGeom (1/2) 0) 1 0) (some 1) = [] :=
  claim_C3_amended (1/2) 0 1 (some 1) (by norm_num) (Or.inr (by norm_num))

/-- C10: for a point geometry with offset 0 and any positive cellSize,
`get_cells` yields no cells iff at least one coordinate of the point is
an integer (floor = ceil collapses that coordinate range); when both are
non-integers, at least one cell is yielded. -/
theorem claim_C10 (px py cs : ℚ) (hcs : 0 < cs) :
    get_cells (pointGeom px py) cs 0 = [] ↔
      px = (⌊px⌋ : ℚ) ∨ py = (⌊py⌋ : ℚ) :=
  get_cells_point_eq_nil_iff px py cs hcs

/-- Witness for C10 at the point (1/2, 1/3) with cellSize 1. -/
theorem claim_C10_witness :
    (get_cells (pointGeom (1/2) (1/3)) 1 0 = [] ↔
      (1/2 : ℚ) = (⌊(1/2 : ℚ)⌋ : ℚ) ∨ (1/3 : ℚ) = (⌊(1/3 : ℚ)⌋ : ℚ)) :=
  claim_C10 (1/2) (1/3) 1 (by norm_num)
